import Mathlib

/-!
Verification development for the Hamsterball extensions to the Hamster
graphics library (hamsterball.py).

The embedding models Python floats as exact rationals.  The library
functions whose exact values the program never branches on in an
essential way (math.sqrt, and the sine/cosine hidden inside cairo's
rotate) are passed as an explicit parameter bundle `RealFns`; every
theorem below is proved for an arbitrary choice of these functions, so
in particular it holds for the real square root and trigonometric
functions.

The cairo rendering context is modelled by its user-to-device matrix, a
save/restore stack of matrices, and a log of the transform operations
issued to it.  The external hamster scene-graph base class
(graphics.Sprite) is not part of this repository; the few behaviours of
it that the code relies on are modelled from the specification and
flagged as such in their doc comments.
-/

/-- Python int() applied to an exact rational: truncation toward zero. -/
def pyInt (q : ℚ) : ℤ := if 0 ≤ q then ⌊q⌋ else ⌈q⌉

/-- A cairo ImageSurface: the pixel dimensions it was created with and the
uniform scale at which the SVG was rasterized onto it (the context of the
surface is scaled by the factor before svgh.render_cairo). -/
structure Surface where
  width : ℤ
  height : ℤ
  renderScale : ℚ
  deriving DecidableEq, Repr

/-- Python dict access d[k] on an insertion-ordered association list:
some value when the key is present, none for a KeyError. -/
def dlookup (l : List (ℚ × Surface)) (k : ℚ) : Option Surface :=
  (l.find? (fun p => decide (p.1 = k))).map Prod.snd

/-- Python max() over a list of keys: none on an empty list (ValueError). -/
def keyMax : List ℚ → Option ℚ
  | [] => none
  | k :: ks =>
    some (match keyMax ks with
      | none => k
      | some m => max k m)

/-- Python list.sort() for ascending numeric sort, modelled by a stable
structural insertion sort (extensionally the stable ascending sort that
list.sort performs). -/
def pySortInsert (a : ℚ) : List ℚ → List ℚ
  | [] => [a]
  | b :: bs => if a ≤ b then a :: b :: bs else b :: pySortInsert a bs

/-- Python list.sort(): ascending stable sort. -/
def pySort : List ℚ → List ℚ
  | [] => []
  | a :: as => pySortInsert a (pySort as)

/-- SVGTexture: the container of rasterized surfaces generated from one
SVG at the fixed set of scale factors (field names follow the source:
reses for __reses, textures for the __textures dict kept as an
insertion-ordered association list, width and height for the SVG's
intrinsic size). -/
structure SVGTexture where
  reses : List ℚ
  width : ℚ
  height : ℚ
  textures : List (ℚ × Surface)
  deriving DecidableEq, Repr

/-- SVGTexture.__init__: pick the fixed factor list for the requested
quality, sort it ascending, and rasterize one surface per factor with
pixel dimensions int(w*size) x int(h*size).  The intrinsic width w and
height h are the values read from the SVG handle (the rsvg collaborator
is external, so they are parameters here). -/
def SVGTexture.init (w h : ℚ) (highres : Bool) : SVGTexture :=
  let reses0 : List ℚ :=
    if highres then [0.4, 1.0, 2.0, 4.0, 8.0, 16.0]
    else [0.2, 0.4, 1.0, 2.0, 4.0, 8.0]
  let reses := pySort reses0
  { reses := reses
    width := w
    height := h
    textures := reses.map (fun size =>
      (size, { width := pyInt (w * size), height := pyInt (h * size), renderScale := size })) }

/-- The loop of SVGTexture.get_texture: iterate over the ascending factor
list, returning the surface of the first factor strictly above the
requested scale; after a full pass fall back to the surface of the
largest dict key, paired with the leftover loop variable (the last
element seen).  none models the exceptions of the source (NameError on an
empty factor list, KeyError on a missing dict key). -/
def getTexLoop (txs : List (ℚ × Surface)) (scale : ℚ) :
    List ℚ → Option ℚ → Option (Surface × ℚ)
  | [], last =>
    match last, keyMax (txs.map Prod.fst) with
    | some k, some mk => (dlookup txs mk).map (fun t => (t, k))
    | _, _ => none
  | key :: rest, _ =>
    if scale < key then (dlookup txs key).map (fun t => (t, key))
    else getTexLoop txs scale rest (some key)

/-- SVGTexture.get_texture(scale_x, scale_y): scale = max of the two
requested scales, then the selection loop over __reses. -/
def SVGTexture.get_texture (tex : SVGTexture) (scale_x scale_y : ℚ) :
    Option (Surface × ℚ) :=
  let scale := max scale_x scale_y
  getTexLoop tex.textures scale tex.reses none

/-- Well-formedness of a texture as established by SVGTexture.__init__:
a nonempty strictly ascending positive factor list whose surfaces dict
has exactly those factors as keys, in the same order. -/
def SVGTexture.WF (tex : SVGTexture) : Prop :=
  tex.reses ≠ [] ∧ List.Sorted (· < ·) tex.reses ∧
    (∀ k ∈ tex.reses, 0 < k) ∧ tex.textures.map Prod.fst = tex.reses

instance (tex : SVGTexture) : Decidable tex.WF := by
  unfold SVGTexture.WF
  infer_instance

/-- The real-valued library functions the draw path applies (math.sqrt,
and the sine/cosine of cairo rotate), as an explicit parameter bundle:
all theorems hold for every choice of them. -/
structure RealFns where
  sqrt : ℚ → ℚ
  sin : ℚ → ℚ
  cos : ℚ → ℚ

/-- A cairo user-to-device matrix, in the component order returned by
context.get_matrix(): (xx, yx, xy, yy, x0, y0). -/
structure Mat where
  xx : ℚ
  yx : ℚ
  xy : ℚ
  yy : ℚ
  x0 : ℚ
  y0 : ℚ
  deriving DecidableEq, Repr

/-- One transform operation issued to the cairo context. -/
inductive CtxOp where
  | save : CtxOp
  | restore : CtxOp
  | translate (tx ty : ℚ) : CtxOp
  | rotate (angle : ℚ) : CtxOp
  | scale (sx sy : ℚ) : CtxOp
  deriving DecidableEq, Repr

/-- The cairo rendering context as the draw path uses it: the current
matrix, the save/restore stack, and the log of transform operations
issued so far. -/
structure Ctx where
  m : Mat
  stack : List Mat
  log : List CtxOp
  deriving DecidableEq, Repr

/-- The matrix effect of cairo translate: postmultiply by a translation. -/
def Mat.mtranslate (m : Mat) (tx ty : ℚ) : Mat :=
  { m with
    x0 := m.xx * tx + m.xy * ty + m.x0
    y0 := m.yx * tx + m.yy * ty + m.y0 }

/-- The matrix effect of cairo rotate: postmultiply by a rotation whose
entries are the sine and cosine supplied by the RealFns bundle. -/
def Mat.mrotate (R : RealFns) (m : Mat) (angle : ℚ) : Mat :=
  { xx := m.xx * R.cos angle + m.xy * R.sin angle
    yx := m.yx * R.cos angle + m.yy * R.sin angle
    xy := -m.xx * R.sin angle + m.xy * R.cos angle
    yy := -m.yx * R.sin angle + m.yy * R.cos angle
    x0 := m.x0
    y0 := m.y0 }

/-- The matrix effect of cairo scale: postmultiply by a nonuniform scale. -/
def Mat.mscale (m : Mat) (sx sy : ℚ) : Mat :=
  { m with
    xx := m.xx * sx
    yx := m.yx * sx
    xy := m.xy * sy
    yy := m.yy * sy }

/-- context.save(): push the current matrix. -/
def Ctx.save (c : Ctx) : Ctx :=
  { c with stack := c.m :: c.stack, log := c.log ++ [.save] }

/-- context.restore(): pop the most recently saved matrix (a no-op on the
matrix when the stack is empty, which the code never does). -/
def Ctx.restore (c : Ctx) : Ctx :=
  match c.stack with
  | [] => { c with log := c.log ++ [.restore] }
  | m :: rest => { m := m, stack := rest, log := c.log ++ [.restore] }

/-- context.translate(tx, ty). -/
def Ctx.translate (c : Ctx) (tx ty : ℚ) : Ctx :=
  { c with m := c.m.mtranslate tx ty, log := c.log ++ [.translate tx ty] }

/-- context.rotate(angle). -/
def Ctx.rotate (R : RealFns) (c : Ctx) (angle : ℚ) : Ctx :=
  { c with m := c.m.mrotate R angle, log := c.log ++ [.rotate angle] }

/-- context.scale(sx, sy). -/
def Ctx.scale (c : Ctx) (sx sy : ℚ) : Ctx :=
  { c with m := c.m.mscale sx sy, log := c.log ++ [.scale sx sy] }

/-- context.get_matrix(). -/
def Ctx.get_matrix (c : Ctx) : Mat := c.m

/-- The transform attributes of a hamster graphics.Sprite that the draw
paths of this repository read. -/
structure SpriteAttrs where
  x : ℚ
  y : ℚ
  opacity : ℚ
  visible : Bool
  rotation : ℚ
  pivot_x : ℚ
  pivot_y : ℚ
  scale_x : ℚ
  scale_y : ℚ
  interactive : Bool
  draggable : Bool
  deriving DecidableEq, Repr

/-- Python truthiness of any([self.x, self.y, self.rotation,
self.scale_x, self.scale_y]): true when some entry is nonzero. -/
def anyCond (a : SpriteAttrs) : Bool :=
  decide (a.x ≠ 0) || decide (a.y ≠ 0) || decide (a.rotation ≠ 0) ||
    decide (a.scale_x ≠ 0) || decide (a.scale_y ≠ 0)

/-- Lines 106-119 of SVGSprite._draw: the guarded composition of the
local transform onto the context (save, translate to the pivot-adjusted
position, rotate, undo the pivot offset, apply the nonuniform scale,
each step itself guarded as in the source). -/
def localTransform (R : RealFns) (a : SpriteAttrs) (c : Ctx) : Ctx :=
  if anyCond a then
    let c1 := c.save
    let c2 :=
      if a.x ≠ 0 ∨ a.y ≠ 0 ∨ a.pivot_x ≠ 0 ∨ a.pivot_y ≠ 0 then
        c1.translate (a.x + a.pivot_x) (a.y + a.pivot_y)
      else c1
    let c3 := if a.rotation ≠ 0 then Ctx.rotate R c2 a.rotation else c2
    let c4 :=
      if a.pivot_x ≠ 0 ∨ a.pivot_y ≠ 0 then
        c3.translate (-a.pivot_x) (-a.pivot_y)
      else c3
    if a.scale_x ≠ 1 ∨ a.scale_y ≠ 1 then c4.scale a.scale_x a.scale_y else c4
  else c

/-- An SVGSprite node together with the subtree of its child sprites.
Besides the base attributes it carries the SVGTexture reference, the
currently bound surface (self.texture), the dirty flag (_sprite_dirty),
the opacity last written to self.graphics, and the list of surfaces its
on-render handler has painted into self.graphics so far. -/
inductive SVGSprite where
  | mk (attrs : SpriteAttrs) (svg_tex : SVGTexture) (texture : Surface)
      (sprite_dirty : Bool) (graphicsOpacity : ℚ) (painted : List Surface)
      (sprites : List SVGSprite)
  deriving Repr

def SVGSprite.attrs : SVGSprite → SpriteAttrs
  | .mk a _ _ _ _ _ _ => a

def SVGSprite.svg_tex : SVGSprite → SVGTexture
  | .mk _ t _ _ _ _ _ => t

def SVGSprite.texture : SVGSprite → Surface
  | .mk _ _ t _ _ _ _ => t

def SVGSprite.sprite_dirty : SVGSprite → Bool
  | .mk _ _ _ d _ _ _ => d

def SVGSprite.graphicsOpacity : SVGSprite → ℚ
  | .mk _ _ _ _ g _ _ => g

def SVGSprite.painted : SVGSprite → List Surface
  | .mk _ _ _ _ _ p _ => p

def SVGSprite.sprites : SVGSprite → List SVGSprite
  | .mk _ _ _ _ _ _ s => s

/-- The texture tier SVGSprite._draw selects for a node at a given
incoming context: the matrix after the local transform composition is
decomposed by cscale_x = sqrt(xx*xx + xy*xy), cscale_y =
sqrt(yy*yy + yx*yx) and handed to get_texture. -/
def SVGSprite.selectedTier (R : RealFns) (n : SVGSprite) (c : Ctx) :
    Option (Surface × ℚ) :=
  let c1 := localTransform R n.attrs c
  let mtx := c1.get_matrix
  n.svg_tex.get_texture (R.sqrt (mtx.xx * mtx.xx + mtx.xy * mtx.xy))
    (R.sqrt (mtx.yy * mtx.yy + mtx.yx * mtx.yx))

mutual
/-- SVGSprite._draw(context, opacity), lines 98-156 of the source, with
the subtree recursion of lines 152-153.  The none result models an
exception escaping the call (only possible from get_texture on a
malformed texture).  The bound-surface assignment self.texture = t
additionally sets the dirty flag; that step is modelled from the spec:
the hamster graphics.Sprite base class (external, not under src/) marks
a sprite dirty whenever a drawing-related attribute such as the bound
surface is assigned a new value, which is what lets the rebind signal
that a repaint is required. -/
def SVGSprite.draw (R : RealFns) : SVGSprite → Ctx → ℚ → Option (SVGSprite × Ctx)
  | .mk a tex texture dirty gop painted kids, context, opacity =>
    if a.visible = false then
      some (.mk a tex texture dirty gop painted kids, context)
    else
      let c1 := localTransform R a context
      let gop1 := a.opacity * opacity
      let mtx := c1.get_matrix
      let cscale_x := R.sqrt (mtx.xx * mtx.xx + mtx.xy * mtx.xy)
      let cscale_y := R.sqrt (mtx.yy * mtx.yy + mtx.yx * mtx.yx)
      match tex.get_texture cscale_x cscale_y with
      | none => none
      | some (t, s) =>
        let c2 := c1.scale (1 / s) (1 / s)
        let texture1 := if texture ≠ t then t else texture
        let dirty1 := if texture ≠ t then true else dirty
        let painted1 := if dirty1 then painted ++ [texture1] else painted
        let dirty2 := if dirty1 then false else dirty1
        let c3 := c2.scale s s
        match SVGSprite.drawList R kids c3 (a.opacity * opacity) with
        | none => none
        | some (kids1, c4) =>
          let c5 := if anyCond a then c4.restore else c4
          some (.mk a tex texture1 dirty2 gop1 painted1 kids1, c5)

/-- The child loop of SVGSprite._draw: each child drawn in order on the
context produced by the previous one. -/
def SVGSprite.drawList (R : RealFns) :
    List SVGSprite → Ctx → ℚ → Option (List SVGSprite × Ctx)
  | [], c, _ => some ([], c)
  | k :: ks, c, opacity =>
    match SVGSprite.draw R k c opacity with
    | none => none
    | some (k1, c1) =>
      match SVGSprite.drawList R ks c1 opacity with
      | none => none
      | some (ks1, c2) => some (k1 :: ks1, c2)
end

/-- SVGSprite.__init__: bind the surface selected for the starting scale
attributes; none models the constructor raising (only possible on a
malformed texture).  The fresh sprite starts dirty (its surface has
never been painted), with an empty child list and a fresh Graphics. -/
def SVGSprite.init (svg_tex : SVGTexture) (a : SpriteAttrs) : Option SVGSprite :=
  (svg_tex.get_texture a.scale_x a.scale_y).map (fun ts =>
    .mk a svg_tex ts.1 true 1 [] [])

mutual
/-- Every texture referenced in the subtree has only positive stored
factors (true of every SVGTexture the constructor can build). -/
def SVGSprite.texsPos : SVGSprite → Bool
  | .mk _ tex _ _ _ _ kids =>
    tex.reses.all (fun k => decide (0 < k)) && SVGSprite.texsPosList kids

def SVGSprite.texsPosList : List SVGSprite → Bool
  | [] => true
  | k :: ks => SVGSprite.texsPos k && SVGSprite.texsPosList ks
end

mutual
/-- Every node of the subtree has its bound surface inside the surface
set of the SVGTexture it references. -/
def SVGSprite.boundOK : SVGSprite → Bool
  | .mk _ tex texture _ _ _ kids =>
    decide (texture ∈ tex.textures.map Prod.snd) && SVGSprite.boundOKList kids

def SVGSprite.boundOKList : List SVGSprite → Bool
  | [] => true
  | k :: ks => SVGSprite.boundOK k && SVGSprite.boundOKList ks
end

/-- A Box2D vector as read from body.GetPosition(). -/
structure B2Vec2 where
  x : ℚ
  y : ℚ
  deriving DecidableEq, Repr

/-- The simulation state of a rigid body that PhysicsBox._draw reads:
GetPosition() and GetAngle(). -/
structure B2Body where
  position : B2Vec2
  angle : ℚ
  deriving DecidableEq, Repr

/-- PhysicsBox: a sprite container holding an optional physics body
reference and the world handle (opaque here). -/
structure PhysicsBox where
  attrs : SpriteAttrs
  body : Option B2Body
  deriving DecidableEq, Repr

/-- Lines 192-198 of PhysicsBox._draw: when a body is attached, overwrite
the node position by the simulation position scaled by 25.0 with the
y-axis flipped, and the rotation by the negated body angle; with no body
attached the attributes are untouched. -/
def PhysicsBox.updateFromBody (p : PhysicsBox) : PhysicsBox :=
  match p.body with
  | some body =>
    { p with attrs :=
      { p.attrs with
        x := body.position.x * 25.0
        y := -body.position.y * 25.0
        rotation := -body.angle } }
  | none => p

/-- Modelled from the spec: graphics.Sprite._draw of the external hamster
base class (not under src/), which performs the same guarded local
transform composition and matching restore as steps 2 and 12 of the
ScalableSpriteNode draw contract and does not write the node's
position/rotation/scale attributes. -/
def spriteBaseDraw (R : RealFns) (a : SpriteAttrs) (c : Ctx) : Ctx :=
  if a.visible = false then c
  else
    let c1 := localTransform R a c
    if anyCond a then c1.restore else c1

/-- PhysicsBox._draw(context, opacity): the body-driven attribute update
followed by delegation to the base class draw. -/
def PhysicsBox.draw (R : RealFns) (p : PhysicsBox) (c : Ctx) (_opacity : ℚ) :
    PhysicsBox × Ctx :=
  let p1 := p.updateFromBody
  (p1, spriteBaseDraw R p1.attrs c)

/-! ### Lemmas about the texture container -/

theorem dlookup_isSome_of_mem {l : List (ℚ × Surface)} {k : ℚ}
    (h : k ∈ l.map Prod.fst) : ∃ t, dlookup l k = some t := by
  unfold dlookup
  obtain ⟨p, hp, hpk⟩ := List.mem_map.mp h
  have : ∃ x, x ∈ l ∧ (fun p : ℚ × Surface => decide (p.1 = k)) x := ⟨p, hp, by simpa using hpk⟩
  obtain ⟨q, hq⟩ := Option.isSome_iff_exists.mp (List.find?_isSome.mpr this)
  exact ⟨q.2, by rw [hq]; rfl⟩

theorem dlookup_mem_values {l : List (ℚ × Surface)} {k : ℚ} {t : Surface}
    (h : dlookup l k = some t) : t ∈ l.map Prod.snd := by
  unfold dlookup at h
  obtain ⟨p, hp, hpt⟩ := Option.map_eq_some'.mp h
  exact hpt ▸ List.mem_map_of_mem Prod.snd (List.mem_of_find?_eq_some hp)

theorem keyMax_mem : ∀ {l : List ℚ} {m : ℚ}, keyMax l = some m → m ∈ l := by
  intro l
  induction l with
  | nil => intro m h; simp [keyMax] at h
  | cons a t ih =>
    intro m h
    simp only [keyMax] at h
    cases ht : keyMax t with
    | none => rw [ht] at h; simp at h; simp [h]
    | some mt =>
      rw [ht] at h
      simp only [Option.some_inj] at h
      rcases max_choice a mt with hc | hc
      · rw [hc] at h; simp [h]
      · rw [hc] at h; exact h ▸ List.mem_cons_of_mem a (ih ht)

theorem keyMax_ge : ∀ {l : List ℚ} {m : ℚ}, keyMax l = some m → ∀ g ∈ l, g ≤ m := by
  intro l
  induction l with
  | nil => intro m _ g hg; simp at hg
  | cons a t ih =>
    intro m h g hg
    simp only [keyMax] at h
    cases ht : keyMax t with
    | none =>
      rw [ht] at h
      simp only [Option.some_inj] at h
      cases t with
      | nil =>
        rcases List.mem_singleton.mp hg with rfl
        exact le_of_eq h
      | cons b u => simp [keyMax] at ht
    | some mt =>
      rw [ht] at h
      simp only [Option.some_inj] at h
      rcases List.mem_cons.mp hg with rfl | hgt
      · exact h ▸ le_max_left g mt
      · exact h ▸ le_trans (ih ht g hgt) (le_max_right a mt)

theorem keyMax_isSome {l : List ℚ} (h : l ≠ []) : ∃ m, keyMax l = some m := by
  cases l with
  | nil => exact absurd rfl h
  | cons a t => exact ⟨_, rfl⟩

theorem getLast?_mem : ∀ {l : List ℚ} {lk : ℚ}, l.getLast? = some lk → lk ∈ l := by
  intro l
  induction l with
  | nil => intro lk h; simp at h
  | cons a t ih =>
    intro lk h
    cases t with
    | nil =>
      simp only [List.getLast?_singleton, Option.some_inj] at h
      simp [h]
    | cons b u =>
      rw [List.getLast?_cons_cons] at h
      exact List.mem_cons_of_mem a (ih h)

theorem sorted_le_getLast : ∀ {l : List ℚ}, List.Sorted (· < ·) l →
    ∀ {lk : ℚ}, l.getLast? = some lk → ∀ g ∈ l, g ≤ lk := by
  intro l
  induction l with
  | nil => intro _ lk h; simp at h
  | cons a t ih =>
    intro hs lk hlk g hg
    rcases List.sorted_cons.mp hs with ⟨ha, hst⟩
    cases t with
    | nil =>
      simp only [List.getLast?_singleton, Option.some_inj] at hlk
      rcases List.mem_singleton.mp hg with rfl
      exact le_of_eq hlk
    | cons b u =>
      rw [List.getLast?_cons_cons] at hlk
      rcases List.mem_cons.mp hg with rfl | hgt
      · exact le_of_lt (ha lk (getLast?_mem hlk))
      · exact ih hst hlk g hgt

theorem getLast?_isSome {l : List ℚ} (h : l ≠ []) : ∃ lk, l.getLast? = some lk := by
  cases l with
  | nil => exact absurd rfl h
  | cons a t => exact ⟨(a :: t).getLast (by simp), List.getLast?_eq_getLast _ _⟩

/-- In the hit case the loop returns the surface of the unique minimal
factor above the requested scale. -/
theorem getTexLoop_hit (txs : List (ℚ × Surface)) (scale : ℚ) :
    ∀ (l : List ℚ) (last : Option ℚ) (k : ℚ), List.Sorted (· < ·) l →
      k ∈ l → scale < k → (∀ g ∈ l, scale < g → k ≤ g) →
      getTexLoop txs scale l last = (dlookup txs k).map (fun t => (t, k)) := by
  intro l
  induction l with
  | nil => intro _ k _ hk; simp at hk
  | cons a t ih =>
    intro last k hs hk hsc hmin
    rcases List.sorted_cons.mp hs with ⟨ha, hst⟩
    by_cases hlt : scale < a
    · have hka : k = a := by
        have h1 : k ≤ a := hmin a (List.mem_cons_self a t) hlt
        rcases List.mem_cons.mp hk with rfl | hkt
        · rfl
        · exact absurd h1 (not_le.mpr (ha k hkt))
      subst hka
      simp [getTexLoop, hlt]
    · have hka : k ∈ t := by
        rcases List.mem_cons.mp hk with rfl | hkt
        · exact absurd hsc hlt
        · exact hkt
      have := ih (some a) k hst hka hsc (fun g hg hsg => hmin g (List.mem_cons_of_mem a hg) hsg)
      simp [getTexLoop, hlt, this]

/-- In the miss case the loop falls back to the surface of the largest
dict key, paired with the last factor of the list. -/
theorem getTexLoop_miss (txs : List (ℚ × Surface)) (scale : ℚ) :
    ∀ (l : List ℚ) (last : Option ℚ) (lk : ℚ), (∀ g ∈ l, ¬ scale < g) →
      l.getLast? = some lk →
      getTexLoop txs scale l last =
        (keyMax (txs.map Prod.fst)).bind
          (fun mk => (dlookup txs mk).map (fun t => (t, lk))) := by
  intro l
  induction l with
  | nil => intro _ lk _ h; simp at h
  | cons a t ih =>
    intro last lk hnone hlk
    have hna : ¬ scale < a := hnone a (List.mem_cons_self a t)
    cases t with
    | nil =>
      simp only [List.getLast?_singleton, Option.some_inj] at hlk
      subst hlk
      simp only [getTexLoop, hna, if_neg hna]
      cases hkm : keyMax (txs.map Prod.fst) <;> simp [getTexLoop, hkm]
    | cons b u =>
      rw [List.getLast?_cons_cons] at hlk
      have := ih (some a) lk (fun g hg => hnone g (List.mem_cons_of_mem a hg)) hlk
      rw [getTexLoop, if_neg hna]
      exact this

theorem exists_least_gt (scale : ℚ) :
    ∀ {l : List ℚ}, List.Sorted (· < ·) l → (∃ g ∈ l, scale < g) →
      ∃ k ∈ l, scale < k ∧ ∀ g ∈ l, scale < g → k ≤ g := by
  intro l
  induction l with
  | nil => intro _ h; simp at h
  | cons a t ih =>
    intro hs hex
    rcases List.sorted_cons.mp hs with ⟨ha, hst⟩
    by_cases hlt : scale < a
    · refine ⟨a, List.mem_cons_self a t, hlt, ?_⟩
      intro g hg _
      rcases List.mem_cons.mp hg with rfl | hgt
      · exact le_refl g
      · exact le_of_lt (ha g hgt)
    · obtain ⟨g0, hg0, hsg0⟩ := hex
      have hg0t : g0 ∈ t := by
        rcases List.mem_cons.mp hg0 with rfl | h
        · exact absurd hsg0 hlt
        · exact h
      obtain ⟨k, hk, hsk, hmin⟩ := ih hst ⟨g0, hg0t, hsg0⟩
      refine ⟨k, List.mem_cons_of_mem a hk, hsk, ?_⟩
      intro g hg hsg
      rcases List.mem_cons.mp hg with rfl | hgt
      · exact absurd hsg hlt
      · exact hmin g hgt hsg

/-- The combined behaviour of get_texture on a well-formed texture:
it always returns, the surface it returns is the stored surface of the
factor it returns, and the factor is the least one above the requested
scale when one exists, the largest (and last) stored factor otherwise. -/
theorem get_texture_core (tex : SVGTexture) (hWF : tex.WF) (sx sy : ℚ) :
    ∃ t f, tex.get_texture sx sy = some (t, f) ∧ f ∈ tex.reses ∧
      dlookup tex.textures f = some t ∧
      ((∃ g ∈ tex.reses, max sx sy < g) →
        max sx sy < f ∧ ∀ g ∈ tex.reses, max sx sy < g → f ≤ g) ∧
      ((∀ g ∈ tex.reses, g ≤ max sx sy) →
        tex.reses.getLast? = some f ∧ ∀ g ∈ tex.reses, g ≤ f) := by
  obtain ⟨hne, hsorted, hpos, hkeys⟩ := hWF
  by_cases hex : ∃ g ∈ tex.reses, max sx sy < g
  · obtain ⟨k, hk, hsk, hmin⟩ := exists_least_gt (max sx sy) hsorted hex
    obtain ⟨t, ht⟩ := dlookup_isSome_of_mem (l := tex.textures) (k := k) (by rw [hkeys]; exact hk)
    refine ⟨t, k, ?_, hk, ht, fun _ => ⟨hsk, hmin⟩, ?_⟩
    · unfold SVGTexture.get_texture
      rw [getTexLoop_hit tex.textures (max sx sy) tex.reses none k hsorted hk hsk hmin, ht]
      rfl
    · intro hall
      exact absurd hsk (not_lt.mpr (hall k hk))
  · push_neg at hex
    obtain ⟨lk, hlk⟩ := getLast?_isSome hne
    obtain ⟨mk, hmk⟩ := keyMax_isSome (l := tex.textures.map Prod.fst)
      (by rw [hkeys]; exact hne)
    have hmkmem : mk ∈ tex.reses := by rw [← hkeys]; exact keyMax_mem hmk
    obtain ⟨t, ht⟩ := dlookup_isSome_of_mem (l := tex.textures) (k := mk)
      (by rw [hkeys]; exact hmkmem)
    have hmklk : mk = lk := by
      have h1 : mk ≤ lk := sorted_le_getLast hsorted hlk mk hmkmem
      have h2 : lk ≤ mk := by
        have := keyMax_ge hmk lk (by rw [hkeys]; exact getLast?_mem hlk)
        exact this
      exact le_antisymm h1 h2
    refine ⟨t, lk, ?_, getLast?_mem hlk, by rw [← hmklk]; exact ht, ?_, ?_⟩
    · unfold SVGTexture.get_texture
      rw [getTexLoop_miss tex.textures (max sx sy) tex.reses none lk
        (fun g hg => not_lt.mpr (hex g hg)) hlk, hmk]
      simp [ht]
    · rintro ⟨g, hg, hsg⟩
      exact absurd hsg (not_lt.mpr (hex g hg))
    · intro _
      exact ⟨hlk, fun g hg => sorted_le_getLast hsorted hlk g hg⟩

/-! ### Claims about texture selection and construction -/

/-- C1: for every well-formed SVGTexture and every pair of requested
scales, get_texture computes scale = max(scale_x, scale_y) and returns
the stored surface of the smallest stored factor strictly greater than
scale, paired with that factor; when no stored factor exceeds scale it
returns the surface of the largest stored factor, paired with it. -/
theorem get_texture_selects_smallest_above (tex : SVGTexture) (hWF : tex.WF)
    (scale_x scale_y : ℚ) :
    ∃ t f, tex.get_texture scale_x scale_y = some (t, f) ∧ f ∈ tex.reses ∧
      dlookup tex.textures f = some t ∧
      ((∃ g ∈ tex.reses, max scale_x scale_y < g) →
        max scale_x scale_y < f ∧
          ∀ g ∈ tex.reses, max scale_x scale_y < g → f ≤ g) ∧
      ((∀ g ∈ tex.reses, g ≤ max scale_x scale_y) → ∀ g ∈ tex.reses, g ≤ f) := by
  obtain ⟨t, f, h1, h2, h3, h4, h5⟩ := get_texture_core tex hWF scale_x scale_y
  exact ⟨t, f, h1, h2, h3, h4, fun hall => (h5 hall).2⟩

theorem get_texture_selects_smallest_above_witness :
    (SVGTexture.init 100 50 true).WF ∧
      ∃ t f, (SVGTexture.init 100 50 true).get_texture 1.5 1.5 = some (t, f) ∧
        f ∈ (SVGTexture.init 100 50 true).reses ∧
        dlookup (SVGTexture.init 100 50 true).textures f = some t ∧
        ((∃ g ∈ (SVGTexture.init 100 50 true).reses, max 1.5 1.5 < g) →
          max (1.5 : ℚ) 1.5 < f ∧
            ∀ g ∈ (SVGTexture.init 100 50 true).reses, max 1.5 1.5 < g → f ≤ g) ∧
        ((∀ g ∈ (SVGTexture.init 100 50 true).reses, g ≤ max 1.5 1.5) →
          ∀ g ∈ (SVGTexture.init 100 50 true).reses, g ≤ f) :=
  ⟨by with_unfolding_all decide,
    get_texture_selects_smallest_above (SVGTexture.init 100 50 true)
      (by with_unfolding_all decide) 1.5 1.5⟩

/-- C10: on any well-formed texture get_texture returns normally, the
returned surface is exactly the stored surface of the returned factor,
and on the fallback path (no stored factor above the request) the
returned factor is the leftover loop variable, the last and therefore
largest stored factor. -/
theorem get_texture_total_and_consistent (tex : SVGTexture) (hWF : tex.WF)
    (scale_x scale_y : ℚ) :
    ∃ t f, tex.get_texture scale_x scale_y = some (t, f) ∧
      dlookup tex.textures f = some t ∧
      ((∀ g ∈ tex.reses, g ≤ max scale_x scale_y) →
        tex.reses.getLast? = some f) := by
  obtain ⟨t, f, h1, _, h3, _, h5⟩ := get_texture_core tex hWF scale_x scale_y
  exact ⟨t, f, h1, h3, fun hall => (h5 hall).1⟩

theorem get_texture_total_and_consistent_witness :
    (SVGTexture.init 100 50 true).WF ∧
      ∃ t f, (SVGTexture.init 100 50 true).get_texture 20 20 = some (t, f) ∧
        dlookup (SVGTexture.init 100 50 true).textures f = some t ∧
        ((∀ g ∈ (SVGTexture.init 100 50 true).reses, g ≤ max 20 20) →
          (SVGTexture.init 100 50 true).reses.getLast? = some f) :=
  ⟨by with_unfolding_all decide,
    get_texture_total_and_consistent (SVGTexture.init 100 50 true)
      (by with_unfolding_all decide) 20 20⟩

theorem pyInt_of_nonneg {q : ℚ} (h : 0 ≤ q) : pyInt q = ⌊q⌋ := if_pos h

theorem init_reses_highres (w h : ℚ) :
    (SVGTexture.init w h true).reses = [0.4, 1.0, 2.0, 4.0, 8.0, 16.0] := by
  with_unfolding_all rfl

theorem init_reses_lowres (w h : ℚ) :
    (SVGTexture.init w h false).reses = [0.2, 0.4, 1.0, 2.0, 4.0, 8.0] := by
  with_unfolding_all rfl

theorem init_reses_pos (w h : ℚ) (highres : Bool) :
    ∀ f ∈ (SVGTexture.init w h highres).reses, 0 < f := by
  cases highres
  · rw [init_reses_lowres]
    have : ∀ f ∈ [(0.2 : ℚ), 0.4, 1.0, 2.0, 4.0, 8.0], 0 < f := by
      with_unfolding_all decide
    exact this
  · rw [init_reses_highres]
    have : ∀ f ∈ [(0.4 : ℚ), 1.0, 2.0, 4.0, 8.0, 16.0], 0 < f := by
      with_unfolding_all decide
    exact this

theorem init_textures_eq (w h : ℚ) (highres : Bool) :
    (SVGTexture.init w h highres).textures =
      (SVGTexture.init w h highres).reses.map (fun size =>
        (size, ({ width := pyInt (w * size), height := pyInt (h * size),
                  renderScale := size } : Surface))) := rfl

/-- C6: every surface stored by the constructor for factor f has pixel
dimensions exactly floor(w*f) by floor(h*f), for a vector source of
nonnegative intrinsic size. -/
theorem init_surface_dims_floor (w h : ℚ) (hw : 0 ≤ w) (hh : 0 ≤ h)
    (highres : Bool) (f : ℚ) (surf : Surface)
    (hmem : (f, surf) ∈ (SVGTexture.init w h highres).textures) :
    surf.width = ⌊w * f⌋ ∧ surf.height = ⌊h * f⌋ := by
  rw [init_textures_eq] at hmem
  obtain ⟨size, hsize, heq⟩ := List.mem_map.mp hmem
  obtain ⟨rfl, rfl⟩ : size = f ∧
      ({ width := pyInt (w * size), height := pyInt (h * size),
         renderScale := size } : Surface) = surf := by
    exact ⟨congrArg Prod.fst heq, congrArg Prod.snd heq⟩
  have hfpos : 0 < size := init_reses_pos w h highres size hsize
  constructor
  · exact pyInt_of_nonneg (mul_nonneg hw (le_of_lt hfpos))
  · exact pyInt_of_nonneg (mul_nonneg hh (le_of_lt hfpos))

theorem init_surface_dims_floor_witness :
    (0 : ℚ) ≤ 100 ∧ (0 : ℚ) ≤ 50 ∧
      ((2 : ℚ), ({ width := 200, height := 100, renderScale := 2 } : Surface)) ∈
        (SVGTexture.init 100 50 true).textures ∧
      (({ width := 200, height := 100, renderScale := 2 } : Surface).width =
          ⌊(100 : ℚ) * 2⌋ ∧
        ({ width := 200, height := 100, renderScale := 2 } : Surface).height =
          ⌊(50 : ℚ) * 2⌋) :=
  ⟨by with_unfolding_all decide, by with_unfolding_all decide,
    by with_unfolding_all decide,
    init_surface_dims_floor 100 50 (by with_unfolding_all decide)
      (by with_unfolding_all decide) true 2 _ (by with_unfolding_all decide)⟩

/-! ### The local transform composition (lines 106-119) -/

/-- A concrete RealFns bundle for witnesses. -/
def rfns0 : RealFns := { sqrt := fun _ => 1, sin := fun _ => 0, cos := fun _ => 1 }

/-- The identity matrix. -/
def mat0 : Mat := { xx := 1, yx := 0, xy := 0, yy := 1, x0 := 0, y0 := 0 }

/-- A fresh context: identity matrix, empty stack, empty log. -/
def ctx0 : Ctx := { m := mat0, stack := [], log := [] }

/-- Sprite attributes at the identity transform: position and rotation
zero, both scales one, no pivot. -/
def attrsId : SpriteAttrs :=
  { x := 0, y := 0, opacity := 1, visible := true, rotation := 0, pivot_x := 0,
    pivot_y := 0, scale_x := 1, scale_y := 1, interactive := false, draggable := false }

theorem anyCond_eq_false_iff (a : SpriteAttrs) :
    anyCond a = false ↔
      (a.x = 0 ∧ a.y = 0 ∧ a.rotation = 0 ∧ a.scale_x = 0 ∧ a.scale_y = 0) := by
  unfold anyCond
  simp [not_not]
  tauto

theorem localTransform_log_length (R : RealFns) (a : SpriteAttrs) (c : Ctx)
    (h : anyCond a = true) :
    c.log.length < (localTransform R a c).log.length := by
  unfold localTransform
  rw [if_pos h]
  split_ifs <;> simp [Ctx.save, Ctx.translate, Ctx.rotate, Ctx.scale]

/-- C3 counterexample: a node whose position, rotation and scale are all
at identity (x = y = rotation = 0, scale_x = scale_y = 1) still has the
composition applied: SVGSprite._draw issues a context.save, because the
guard any([x, y, rotation, scale_x, scale_y]) sees the truthy value 1 in
scale_x. -/
theorem localTransform_identity_not_skipped :
    attrsId.x = 0 ∧ attrsId.y = 0 ∧ attrsId.rotation = 0 ∧
      attrsId.scale_x = 1 ∧ attrsId.scale_y = 1 ∧
      (localTransform rfns0 attrsId ctx0).log ≠ ctx0.log := by
  with_unfolding_all decide

/-- C3 amended: the local transform composition of SVGSprite._draw
leaves the context entirely untouched if and only if x, y, rotation,
scale_x and scale_y are all zero (the Python truthiness of the guard
any([...])); in particular at the identity transform, whose scales are
one, a save is still pushed (and later matched by a restore). -/
theorem localTransform_skipped_iff_all_zero (R : RealFns) (a : SpriteAttrs) (c : Ctx) :
    localTransform R a c = c ↔
      (a.x = 0 ∧ a.y = 0 ∧ a.rotation = 0 ∧ a.scale_x = 0 ∧ a.scale_y = 0) := by
  constructor
  · intro heq
    cases hany : anyCond a with
    | false => exact (anyCond_eq_false_iff a).mp hany
    | true =>
      have hlt := localTransform_log_length R a c hany
      rw [heq] at hlt
      exact absurd hlt (lt_irrefl _)
  · intro hz
    have hany : anyCond a = false := (anyCond_eq_false_iff a).mpr hz
    unfold localTransform
    rw [hany]
    simp

/-! ### Context and draw traversal lemmas -/

/-- The matrix-level effect of the local transform composition. -/
def mLT (R : RealFns) (a : SpriteAttrs) (m : Mat) : Mat :=
  if anyCond a then
    let m2 :=
      if a.x ≠ 0 ∨ a.y ≠ 0 ∨ a.pivot_x ≠ 0 ∨ a.pivot_y ≠ 0 then
        m.mtranslate (a.x + a.pivot_x) (a.y + a.pivot_y)
      else m
    let m3 := if a.rotation ≠ 0 then m2.mrotate R a.rotation else m2
    let m4 :=
      if a.pivot_x ≠ 0 ∨ a.pivot_y ≠ 0 then m3.mtranslate (-a.pivot_x) (-a.pivot_y)
      else m3
    if a.scale_x ≠ 1 ∨ a.scale_y ≠ 1 then m4.mscale a.scale_x a.scale_y else m4
  else m

theorem localTransform_m (R : RealFns) (a : SpriteAttrs) (c : Ctx) :
    (localTransform R a c).m = mLT R a c.m := by
  unfold localTransform mLT
  split_ifs <;> rfl

theorem localTransform_stack (R : RealFns) (a : SpriteAttrs) (c : Ctx) :
    (localTransform R a c).stack =
      if anyCond a then c.m :: c.stack else c.stack := by
  unfold localTransform
  split_ifs <;> rfl

theorem localTransform_skip (R : RealFns) (a : SpriteAttrs) (c : Ctx)
    (h : anyCond a = false) : localTransform R a c = c := by
  unfold localTransform
  rw [h]
  simp

theorem Ctx.scale_m (c : Ctx) (sx sy : ℚ) : (c.scale sx sy).m = c.m.mscale sx sy := rfl

theorem Ctx.scale_stack (c : Ctx) (sx sy : ℚ) : (c.scale sx sy).stack = c.stack := rfl

theorem Ctx.restore_of_stack {c : Ctx} {mtop : Mat} {rest : List Mat}
    (h : c.stack = mtop :: rest) :
    c.restore.m = mtop ∧ c.restore.stack = rest := by
  unfold Ctx.restore
  rw [h]
  exact ⟨rfl, rfl⟩

theorem mscale_mscale_cancel (m : Mat) {s : ℚ} (hs : s ≠ 0) :
    (m.mscale (1 / s) (1 / s)).mscale s s = m := by
  have hq : ∀ q : ℚ, q * s⁻¹ * s = q := by
    intro q
    field_simp
  cases m
  simp [Mat.mscale, one_div, hq]

/-- Recursion principle for SVGSprite subtrees with the member
hypothesis on the children. -/
def SVGSprite.recTree {motive : SVGSprite → Prop}
    (h : ∀ a tex texture dirty gop painted kids,
      (∀ k ∈ kids, motive k) → motive (.mk a tex texture dirty gop painted kids)) :
    ∀ n, motive n
  | .mk a tex texture dirty gop painted kids =>
    h a tex texture dirty gop painted kids (fun k _ => SVGSprite.recTree h k)
termination_by n => sizeOf n
decreasing_by
  rename_i hk
  have := List.sizeOf_lt_of_mem hk
  simp
  omega

/-- The factor returned by get_texture is one of the stored factors. -/
theorem getTexLoop_key_origin (txs : List (ℚ × Surface)) (scale : ℚ) :
    ∀ (l : List ℚ) (last : Option ℚ) (t : Surface) (k : ℚ),
      getTexLoop txs scale l last = some (t, k) → k ∈ l ∨ last = some k := by
  intro l
  induction l with
  | nil =>
    intro last t k h
    unfold getTexLoop at h
    cases last with
    | none => simp at h
    | some k0 =>
      cases hkm : keyMax (txs.map Prod.fst) with
      | none => rw [hkm] at h; simp at h
      | some mk =>
        rw [hkm] at h
        obtain ⟨t0, _, h2⟩ := Option.map_eq_some'.mp h
        right
        rw [(Prod.mk.injEq _ _ _ _).mp h2 |>.2]
  | cons a rest ih =>
    intro last t k h
    unfold getTexLoop at h
    by_cases hlt : scale < a
    · rw [if_pos hlt] at h
      obtain ⟨t0, _, h2⟩ := Option.map_eq_some'.mp h
      left
      have hak := (Prod.mk.injEq _ _ _ _).mp h2 |>.2
      rw [← hak]
      exact List.mem_cons_self _ _
    · rw [if_neg hlt] at h
      rcases ih (some a) t k h with hk | hk
      · exact Or.inl (List.mem_cons_of_mem a hk)
      · simp only [Option.some_inj] at hk
        exact Or.inl (hk ▸ List.mem_cons_self a rest)

theorem get_texture_key_mem {tex : SVGTexture} {sx sy : ℚ} {t : Surface} {k : ℚ}
    (h : tex.get_texture sx sy = some (t, k)) : k ∈ tex.reses := by
  unfold SVGTexture.get_texture at h
  rcases getTexLoop_key_origin tex.textures (max sx sy) tex.reses none t k h with hk | hk
  · exact hk
  · simp at hk

/-- The surface returned by get_texture is one of the stored surfaces. -/
theorem getTexLoop_surface_mem (txs : List (ℚ × Surface)) (scale : ℚ) :
    ∀ (l : List ℚ) (last : Option ℚ) (t : Surface) (k : ℚ),
      getTexLoop txs scale l last = some (t, k) → t ∈ txs.map Prod.snd := by
  intro l
  induction l with
  | nil =>
    intro last t k h
    unfold getTexLoop at h
    cases last with
    | none => simp at h
    | some k0 =>
      cases hkm : keyMax (txs.map Prod.fst) with
      | none => rw [hkm] at h; simp at h
      | some mk =>
        rw [hkm] at h
        obtain ⟨t0, h1, h2⟩ := Option.map_eq_some'.mp h
        rw [← (Prod.mk.injEq _ _ _ _).mp h2 |>.1]
        exact dlookup_mem_values h1
  | cons a rest ih =>
    intro last t k h
    unfold getTexLoop at h
    by_cases hlt : scale < a
    · rw [if_pos hlt] at h
      obtain ⟨t0, h1, h2⟩ := Option.map_eq_some'.mp h
      rw [← (Prod.mk.injEq _ _ _ _).mp h2 |>.1]
      exact dlookup_mem_values h1
    · rw [if_neg hlt] at h
      exact ih (some a) t k h

theorem get_texture_surface_mem {tex : SVGTexture} {sx sy : ℚ} {t : Surface} {k : ℚ}
    (h : tex.get_texture sx sy = some (t, k)) : t ∈ tex.textures.map Prod.snd := by
  unfold SVGTexture.get_texture at h
  exact getTexLoop_surface_mem tex.textures (max sx sy) tex.reses none t k h

theorem texsPos_destruct {a : SpriteAttrs} {tex : SVGTexture} {texture : Surface}
    {dirty : Bool} {gop : ℚ} {painted : List Surface} {kids : List SVGSprite}
    (h : SVGSprite.texsPos (.mk a tex texture dirty gop painted kids) = true) :
    (∀ k ∈ tex.reses, 0 < k) ∧ SVGSprite.texsPosList kids = true := by
  unfold SVGSprite.texsPos at h
  rw [Bool.and_eq_true] at h
  refine ⟨?_, h.2⟩
  intro k hk
  have := List.all_eq_true.mp h.1 k hk
  simpa using this

theorem texsPosList_destruct {k : SVGSprite} {ks : List SVGSprite}
    (h : SVGSprite.texsPosList (k :: ks) = true) :
    SVGSprite.texsPos k = true ∧ SVGSprite.texsPosList ks = true := by
  unfold SVGSprite.texsPosList at h
  rw [Bool.and_eq_true] at h
  exact h

/-- Transform balance for the child loop, given balance for each child. -/
theorem drawList_balance_aux (R : RealFns) (ks : List SVGSprite)
    (hIH : ∀ k ∈ ks, ∀ (c : Ctx) (o : ℚ) (r : SVGSprite × Ctx),
      SVGSprite.texsPos k = true → SVGSprite.draw R k c o = some r →
      r.2.m = c.m ∧ r.2.stack = c.stack) :
    ∀ (c : Ctx) (o : ℚ) (r : List SVGSprite × Ctx),
      SVGSprite.texsPosList ks = true → SVGSprite.drawList R ks c o = some r →
      r.2.m = c.m ∧ r.2.stack = c.stack := by
  induction ks with
  | nil =>
    intro c o r _ h
    unfold SVGSprite.drawList at h
    simp only [Option.some.injEq] at h
    rw [← h]
    exact ⟨rfl, rfl⟩
  | cons k ks ih =>
    intro c o r hpos h
    obtain ⟨hposk, hposks⟩ := texsPosList_destruct hpos
    unfold SVGSprite.drawList at h
    split at h
    · exact absurd h (by simp)
    · rename_i k1 c1 heq1
      split at h
      · exact absurd h (by simp)
      · rename_i ks1 c2 heq2
        simp only [Option.some.injEq] at h
        have hb1 := hIH k (List.mem_cons_self _ _) c o (k1, c1) hposk heq1
        have hb2 := ih (fun j hj => hIH j (List.mem_cons_of_mem k hj)) c1 o (ks1, c2) hposks heq2
        rw [← h]
        exact ⟨hb2.1.trans hb1.1, hb2.2.trans hb1.2⟩

/-- Transform balance for a whole subtree draw. -/
theorem draw_balance (R : RealFns) :
    ∀ (n : SVGSprite) (c : Ctx) (o : ℚ) (r : SVGSprite × Ctx),
      n.texsPos = true → SVGSprite.draw R n c o = some r →
      r.2.m = c.m ∧ r.2.stack = c.stack := by
  intro n
  induction n using SVGSprite.recTree with
  | h a tex texture dirty gop painted kids hkids =>
    intro c o r hpos hdraw
    obtain ⟨hreses, hposkids⟩ := texsPos_destruct hpos
    unfold SVGSprite.draw at hdraw
    by_cases hv : a.visible = false
    · rw [if_pos hv] at hdraw
      simp only [Option.some.injEq] at hdraw
      rw [← hdraw]
      exact ⟨rfl, rfl⟩
    · rw [if_neg hv] at hdraw
      simp only [Ctx.get_matrix] at hdraw
      split at hdraw
      · exact absurd hdraw (by simp)
      · rename_i t s heq_sel
        split at hdraw
        · exact absurd hdraw (by simp)
        · rename_i kids1 c4 heq_kids
          simp only [Option.some.injEq] at hdraw
          have hs0 : s ≠ 0 := ne_of_gt (hreses s (get_texture_key_mem heq_sel))
          have hbk := drawList_balance_aux R kids hkids _ _ _ hposkids heq_kids
          simp only [Ctx.scale_stack, Ctx.scale_m] at hbk
          rw [← hdraw]
          cases hany : anyCond a with
          | false =>
            simp only [hany, Bool.false_eq_true, if_false]
            constructor
            · rw [hbk.1, mscale_mscale_cancel _ hs0, localTransform_skip R a c hany]
            · rw [hbk.2, localTransform_skip R a c hany]
          | true =>
            simp only [hany, if_true]
            have hst : c4.stack = c.m :: c.stack := by
              rw [hbk.2, localTransform_stack, hany]
              simp
            exact Ctx.restore_of_stack hst

/-- C2: whenever SVGSprite._draw returns, the transform state of the
rendering context (current matrix and save/restore stack) equals its
state before the call: every save is matched by a restore and the
scale(1/s, 1/s) is exactly undone by scale(s, s) on every path, at any
traversal depth. -/
theorem draw_preserves_transform_state (R : RealFns) (n : SVGSprite) (c : Ctx)
    (opacity : ℚ) (r : SVGSprite × Ctx) (hpos : n.texsPos = true)
    (h : SVGSprite.draw R n c opacity = some r) :
    r.2.m = c.m ∧ r.2.stack = c.stack :=
  draw_balance R n c opacity r hpos h

/-- A two-tier texture for concrete draw witnesses. -/
def surfW1 : Surface := { width := 10, height := 10, renderScale := 1 }

/-- The second tier surface of the witness texture. -/
def surfW2 : Surface := { width := 20, height := 20, renderScale := 2 }

/-- A concrete well-formed texture with factors 1 and 2. -/
def texW : SVGTexture :=
  { reses := [1, 2], width := 10, height := 10,
    textures := [(1, surfW1), (2, surfW2)] }

/-- A clean leaf sprite bound to the tier the draw will select. -/
def nodeW : SVGSprite := .mk attrsId texW surfW2 false 1 [] []

/-- The context state after drawing nodeW on a fresh context. -/
def ctxW1 : Ctx :=
  { m := mat0, stack := [],
    log := [.save, .scale (1 / 2) (1 / 2), .scale 2 2, .restore] }

theorem draw_preserves_transform_state_witness :
    SVGSprite.texsPos nodeW = true ∧
      SVGSprite.draw rfns0 nodeW ctx0 1 = some (nodeW, ctxW1) ∧
      ctxW1.m = ctx0.m ∧ ctxW1.stack = ctx0.stack :=
  ⟨by with_unfolding_all rfl, by with_unfolding_all rfl,
    draw_preserves_transform_state rfns0 nodeW ctx0 1 (nodeW, ctxW1)
      (by with_unfolding_all rfl) (by with_unfolding_all rfl)⟩

/-- One-step description of SVGSprite._draw on a visible node whose tier
selection is known: the bound surface afterwards is the selected one, the
dirty flag clears, and the on-render repaint of the (newly) bound surface
happens exactly when the node was dirty or the selection rebind occurred. -/
theorem draw_visible_some (R : RealFns) (a : SpriteAttrs) (tex : SVGTexture)
    (texture : Surface) (dirty : Bool) (gop : ℚ) (painted : List Surface)
    (kids : List SVGSprite) (c : Ctx) (o : ℚ) (hv : a.visible = true)
    (t : Surface) (s : ℚ)
    (hsel : tex.get_texture
      (R.sqrt ((localTransform R a c).m.xx * (localTransform R a c).m.xx +
        (localTransform R a c).m.xy * (localTransform R a c).m.xy))
      (R.sqrt ((localTransform R a c).m.yy * (localTransform R a c).m.yy +
        (localTransform R a c).m.yx * (localTransform R a c).m.yx)) = some (t, s))
    (kids1 : List SVGSprite) (c4 : Ctx)
    (hk : SVGSprite.drawList R kids
      (((localTransform R a c).scale (1 / s) (1 / s)).scale s s)
      (a.opacity * o) = some (kids1, c4)) :
    SVGSprite.draw R (.mk a tex texture dirty gop painted kids) c o =
      some (.mk a tex t false (a.opacity * o)
        (if texture ≠ t ∨ dirty = true then painted ++ [t] else painted) kids1,
        if anyCond a then c4.restore else c4) := by
  unfold SVGSprite.draw
  rw [if_neg (by simp [hv])]
  simp only [Ctx.get_matrix]
  rw [hsel]
  dsimp only
  rw [hk]
  dsimp only
  by_cases hx : texture = t <;> cases dirty <;> simp [hx]

/-- Inversion of SVGSprite._draw on a visible node: a successful draw
factors into a tier selection, the child loop, and the cooked result. -/
theorem draw_visible_inv (R : RealFns) (a : SpriteAttrs) (tex : SVGTexture)
    (texture : Surface) (dirty : Bool) (gop : ℚ) (painted : List Surface)
    (kids : List SVGSprite) (c : Ctx) (o : ℚ) (r : SVGSprite × Ctx)
    (hv : a.visible = true)
    (h : SVGSprite.draw R (.mk a tex texture dirty gop painted kids) c o = some r) :
    ∃ t s kids1 c4,
      tex.get_texture
        (R.sqrt ((localTransform R a c).m.xx * (localTransform R a c).m.xx +
          (localTransform R a c).m.xy * (localTransform R a c).m.xy))
        (R.sqrt ((localTransform R a c).m.yy * (localTransform R a c).m.yy +
          (localTransform R a c).m.yx * (localTransform R a c).m.yx)) = some (t, s) ∧
      SVGSprite.drawList R kids
        (((localTransform R a c).scale (1 / s) (1 / s)).scale s s)
        (a.opacity * o) = some (kids1, c4) ∧
      r = (.mk a tex t false (a.opacity * o)
        (if texture ≠ t ∨ dirty = true then painted ++ [t] else painted) kids1,
        if anyCond a then c4.restore else c4) := by
  unfold SVGSprite.draw at h
  rw [if_neg (by simp [hv])] at h
  simp only [Ctx.get_matrix] at h
  split at h
  · exact absurd h (by simp)
  · rename_i t s hsel
    split at h
    · exact absurd h (by simp)
    · rename_i kids1 c4 hk
      refine ⟨t, s, kids1, c4, hsel, hk, ?_⟩
      simp only [Option.some.injEq] at h
      rw [← h]
      by_cases hx : texture = t <;> cases dirty <;> simp [hx]

theorem texsPos_build {a : SpriteAttrs} {tex : SVGTexture} {texture : Surface}
    {dirty : Bool} {gop : ℚ} {painted : List Surface} {kids : List SVGSprite}
    (h1 : ∀ k ∈ tex.reses, 0 < k) (h2 : SVGSprite.texsPosList kids = true) :
    SVGSprite.texsPos (.mk a tex texture dirty gop painted kids) = true := by
  unfold SVGSprite.texsPos
  rw [Bool.and_eq_true]
  exact ⟨List.all_eq_true.mpr (fun k hk => by simpa using h1 k hk), h2⟩

/-- Stability of the child loop: drawing an already-drawn child list
again, from any context with the same matrix, returns the same list. -/
theorem drawList_stable_aux (R : RealFns) (ks : List SVGSprite)
    (hIH : ∀ k ∈ ks, ∀ (c : Ctx) (o : ℚ) (k1 : SVGSprite) (c1 : Ctx),
      k.texsPos = true → SVGSprite.draw R k c o = some (k1, c1) →
      k1.texsPos = true ∧ ∀ c' : Ctx, c'.m = c.m →
        ∃ c2, SVGSprite.draw R k1 c' o = some (k1, c2)) :
    ∀ (c : Ctx) (o : ℚ) (ks1 : List SVGSprite) (c1 : Ctx),
      SVGSprite.texsPosList ks = true →
      SVGSprite.drawList R ks c o = some (ks1, c1) →
      SVGSprite.texsPosList ks1 = true ∧ ∀ c' : Ctx, c'.m = c.m →
        ∃ c2, SVGSprite.drawList R ks1 c' o = some (ks1, c2) := by
  induction ks with
  | nil =>
    intro c o ks1 c1 _ h
    unfold SVGSprite.drawList at h
    simp only [Option.some.injEq, Prod.mk.injEq] at h
    obtain ⟨h1, _⟩ := h
    rw [← h1]
    exact ⟨rfl, fun c' _ => ⟨c', rfl⟩⟩
  | cons k ks ih =>
    intro c o ks1 c1 hpos h
    obtain ⟨hposk, hposks⟩ := texsPosList_destruct hpos
    unfold SVGSprite.drawList at h
    split at h
    · exact absurd h (by simp)
    · rename_i k1 c1a heq1
      split at h
      · exact absurd h (by simp)
      · rename_i ks1a c1b heq2
        simp only [Option.some.injEq, Prod.mk.injEq] at h
        obtain ⟨hks1, hc1⟩ := h
        obtain ⟨hposk1, hstab1⟩ := hIH k (List.mem_cons_self _ _) c o k1 c1a hposk heq1
        obtain ⟨hposl1, hstabl⟩ :=
          ih (fun j hj => hIH j (List.mem_cons_of_mem k hj)) c1a o ks1a c1b hposks heq2
        have hbal1 := draw_balance R k c o (k1, c1a) hposk heq1
        constructor
        · rw [← hks1]
          unfold SVGSprite.texsPosList
          rw [Bool.and_eq_true]
          exact ⟨hposk1, hposl1⟩
        · intro c' hc'm
          obtain ⟨c2a, hd1⟩ := hstab1 c' hc'm
          have h2am := draw_balance R k1 c' o (k1, c2a) hposk1 hd1
          obtain ⟨c2b, hd2⟩ := hstabl c2a (by rw [h2am.1, hc'm, ← hbal1.1])
          refine ⟨c2b, ?_⟩
          rw [← hks1]
          unfold SVGSprite.drawList
          rw [hd1]
          dsimp only
          rw [hd2]

/-- Stability of draw: drawing an already-drawn subtree again, from any
context with the same matrix as the first call, selects the same tiers
everywhere, changes nothing in the subtree state, and repaints
nothing. -/
theorem draw_stable (R : RealFns) :
    ∀ (n : SVGSprite) (c : Ctx) (o : ℚ) (n1 : SVGSprite) (c1 : Ctx),
      n.texsPos = true → SVGSprite.draw R n c o = some (n1, c1) →
      n1.texsPos = true ∧ ∀ c' : Ctx, c'.m = c.m →
        ∃ c2, SVGSprite.draw R n1 c' o = some (n1, c2) := by
  intro n
  induction n using SVGSprite.recTree with
  | h a tex texture dirty gop painted kids hkids =>
    intro c o n1 c1 hpos hdraw
    obtain ⟨hreses, hposkids⟩ := texsPos_destruct hpos
    by_cases hv : a.visible = true
    · obtain ⟨t, s, kids1, c4, hsel, hk, hr⟩ :=
        draw_visible_inv R a tex texture dirty gop painted kids c o (n1, c1) hv hdraw
      obtain ⟨hn1, hc1⟩ : n1 = SVGSprite.mk a tex t false (a.opacity * o)
          (if texture ≠ t ∨ dirty = true then painted ++ [t] else painted) kids1 ∧
          c1 = if anyCond a then c4.restore else c4 := by
        have := (Prod.mk.injEq _ _ _ _).mp hr
        exact this
      obtain ⟨hposkids1, hstabl⟩ := drawList_stable_aux R kids hkids _ _ _ _ hposkids hk
      subst hn1
      constructor
      · exact texsPos_build hreses hposkids1
      · intro c' hc'm
        have hmEq : (localTransform R a c').m = (localTransform R a c).m := by
          rw [localTransform_m, localTransform_m, hc'm]
        have hsel2 : tex.get_texture
            (R.sqrt ((localTransform R a c').m.xx * (localTransform R a c').m.xx +
              (localTransform R a c').m.xy * (localTransform R a c').m.xy))
            (R.sqrt ((localTransform R a c').m.yy * (localTransform R a c').m.yy +
              (localTransform R a c').m.yx * (localTransform R a c').m.yx)) =
            some (t, s) := by
          rw [hmEq]
          exact hsel
        obtain ⟨c2b, hd⟩ := hstabl
          (((localTransform R a c').scale (1 / s) (1 / s)).scale s s)
          (by simp [Ctx.scale_m, hmEq])
        refine ⟨if anyCond a then c2b.restore else c2b, ?_⟩
        have := draw_visible_some R a tex t false (a.opacity * o)
          (if texture ≠ t ∨ dirty = true then painted ++ [t] else painted) kids1
          c' o hv t s hsel2 kids1 c2b hd
        simpa using this
    · have hvf : a.visible = false := by
        cases hvb : a.visible
        · rfl
        · exact absurd hvb hv
      unfold SVGSprite.draw at hdraw
      rw [if_pos hvf] at hdraw
      simp only [Option.some.injEq, Prod.mk.injEq] at hdraw
      obtain ⟨h1, _⟩ := hdraw
      rw [← h1]
      refine ⟨hpos, ?_⟩
      intro c' _
      refine ⟨c', ?_⟩
      unfold SVGSprite.draw
      rw [if_pos hvf]

/-- C5: drawing twice with an unchanged ancestor transform (the second
call happens on the context returned by the first, whose transform state
equals the original) selects the same texture tier both times and
handles the dirty flag idempotently: the whole subtree state — bound
surface, dirty flag and paint log — is unchanged by the second call, and
when the sprite was dirty before the first call, the repaint happened
exactly once during the first call, after which the flag is clear. -/
theorem draw_twice_idempotent (R : RealFns) (n : SVGSprite) (c : Ctx) (o : ℚ)
    (n1 n2 : SVGSprite) (c1 c2 : Ctx) (hpos : n.texsPos = true)
    (h1 : SVGSprite.draw R n c o = some (n1, c1))
    (h2 : SVGSprite.draw R n1 c1 o = some (n2, c2)) :
    (n2 = n1 ∧ n2.texture = n1.texture ∧ n2.painted = n1.painted) ∧
      (n.attrs.visible = true → n.sprite_dirty = true →
        n1.painted = n.painted ++ [n1.texture] ∧ n1.sprite_dirty = false) := by
  obtain ⟨_, hstab⟩ := draw_stable R n c o n1 c1 hpos h1
  have hbal := draw_balance R n c o (n1, c1) hpos h1
  obtain ⟨c2b, hd⟩ := hstab c1 hbal.1
  have hn2 : n2 = n1 := by
    rw [hd] at h2
    have := (Option.some.injEq _ _).mp h2
    exact ((Prod.mk.injEq _ _ _ _).mp this.symm).1
  refine ⟨⟨hn2, by rw [hn2], by rw [hn2]⟩, ?_⟩
  intro hv hdirty
  obtain ⟨a, tex, texture, dirty, gop, painted, kids⟩ := n
  have hva : a.visible = true := hv
  obtain ⟨t, s, kids1, c4, _, _, hr⟩ :=
    draw_visible_inv R a tex texture dirty gop painted kids c o (n1, c1) hva h1
  have hdt : dirty = true := hdirty
  obtain ⟨hn1, _⟩ := (Prod.mk.injEq _ _ _ _).mp hr
  rw [hn1]
  subst hdt
  simp [SVGSprite.painted, SVGSprite.texture, SVGSprite.sprite_dirty]

/-- The dirty leaf witness sprite: fresh, never painted. -/
def nodeWD : SVGSprite := .mk attrsId texW surfW2 true 1 [] []

/-- The witness sprite after one draw: clean, painted once. -/
def nodeWD1 : SVGSprite := .mk attrsId texW surfW2 false 1 [surfW2] []

/-- The context after drawing the witness sprite twice. -/
def ctxW2 : Ctx :=
  { m := mat0, stack := [],
    log := ctxW1.log ++ [.save, .scale (1 / 2) (1 / 2), .scale 2 2, .restore] }

theorem draw_twice_idempotent_witness :
    SVGSprite.texsPos nodeWD = true ∧
      SVGSprite.draw rfns0 nodeWD ctx0 1 = some (nodeWD1, ctxW1) ∧
      SVGSprite.draw rfns0 nodeWD1 ctxW1 1 = some (nodeWD1, ctxW2) ∧
      ((nodeWD1 = nodeWD1 ∧ nodeWD1.texture = nodeWD1.texture ∧
          nodeWD1.painted = nodeWD1.painted) ∧
        (nodeWD.attrs.visible = true → nodeWD.sprite_dirty = true →
          nodeWD1.painted = nodeWD.painted ++ [nodeWD1.texture] ∧
            nodeWD1.sprite_dirty = false)) :=
  ⟨by with_unfolding_all rfl, by with_unfolding_all rfl, by with_unfolding_all rfl,
    draw_twice_idempotent rfns0 nodeWD ctx0 1 nodeWD1 nodeWD1 ctxW1 ctxW2
      (by with_unfolding_all rfl) (by with_unfolding_all rfl)
      (by with_unfolding_all rfl)⟩

/-- C4: when the surface selected for the current world scale differs
from the currently bound one, _draw rebinds the texture attribute to the
selected surface; under the dirty-on-assignment behaviour of the base
Sprite class (modelled from the spec) this marks the sprite so that the
base surface is repainted — the repaint happens during the same draw
call, right after the rebind, and the flag is clear afterwards. -/
theorem draw_rebind_updates_and_repaints (R : RealFns) (n : SVGSprite) (c : Ctx)
    (o : ℚ) (n1 : SVGSprite) (c1 : Ctx) (t : Surface) (s : ℚ)
    (hv : n.attrs.visible = true)
    (hsel : n.selectedTier R c = some (t, s))
    (hne : n.texture ≠ t)
    (hdraw : SVGSprite.draw R n c o = some (n1, c1)) :
    n1.texture = t ∧ n1.sprite_dirty = false ∧ n1.painted = n.painted ++ [t] := by
  obtain ⟨a, tex, texture, dirty, gop, painted, kids⟩ := n
  have hva : a.visible = true := hv
  obtain ⟨t', s', kids1, c4, hsel', _, hr⟩ :=
    draw_visible_inv R a tex texture dirty gop painted kids c o (n1, c1) hva hdraw
  have hselEq : some (t, s) = some (t', s') := by
    rw [← hsel, ← hsel']
    rfl
  obtain ⟨ht, _⟩ := (Prod.mk.injEq _ _ _ _).mp ((Option.some.injEq _ _).mp hselEq)
  subst ht
  have hnet : texture ≠ t := hne
  obtain ⟨hn1, _⟩ := (Prod.mk.injEq _ _ _ _).mp hr
  rw [hn1]
  simp [SVGSprite.texture, SVGSprite.sprite_dirty, SVGSprite.painted, hnet]

/-- A clean sprite bound to the wrong tier, to exercise the rebind. -/
def nodeWR : SVGSprite := .mk attrsId texW surfW1 false 1 [] []

theorem draw_rebind_updates_and_repaints_witness :
    nodeWR.attrs.visible = true ∧
      nodeWR.selectedTier rfns0 ctx0 = some (surfW2, 2) ∧
      nodeWR.texture ≠ surfW2 ∧
      SVGSprite.draw rfns0 nodeWR ctx0 1 = some (nodeWD1, ctxW1) ∧
      (nodeWD1.texture = surfW2 ∧ nodeWD1.sprite_dirty = false ∧
        nodeWD1.painted = nodeWR.painted ++ [surfW2]) :=
  ⟨by with_unfolding_all rfl, by with_unfolding_all rfl,
    by with_unfolding_all decide, by with_unfolding_all rfl,
    draw_rebind_updates_and_repaints rfns0 nodeWR ctx0 1 nodeWD1 ctxW1 surfW2 2
      (by with_unfolding_all rfl) (by with_unfolding_all rfl)
      (by with_unfolding_all decide) (by with_unfolding_all rfl)⟩

theorem boundOK_destruct {a : SpriteAttrs} {tex : SVGTexture} {texture : Surface}
    {dirty : Bool} {gop : ℚ} {painted : List Surface} {kids : List SVGSprite}
    (h : SVGSprite.boundOK (.mk a tex texture dirty gop painted kids) = true) :
    texture ∈ tex.textures.map Prod.snd ∧ SVGSprite.boundOKList kids = true := by
  unfold SVGSprite.boundOK at h
  rw [Bool.and_eq_true] at h
  exact ⟨of_decide_eq_true h.1, h.2⟩

theorem boundOK_build {a : SpriteAttrs} {tex : SVGTexture} {texture : Surface}
    {dirty : Bool} {gop : ℚ} {painted : List Surface} {kids : List SVGSprite}
    (h1 : texture ∈ tex.textures.map Prod.snd)
    (h2 : SVGSprite.boundOKList kids = true) :
    SVGSprite.boundOK (.mk a tex texture dirty gop painted kids) = true := by
  unfold SVGSprite.boundOK
  rw [Bool.and_eq_true]
  exact ⟨decide_eq_true h1, h2⟩

theorem boundOKList_destruct {k : SVGSprite} {ks : List SVGSprite}
    (h : SVGSprite.boundOKList (k :: ks) = true) :
    SVGSprite.boundOK k = true ∧ SVGSprite.boundOKList ks = true := by
  unfold SVGSprite.boundOKList at h
  rw [Bool.and_eq_true] at h
  exact h

theorem drawList_boundOK_aux (R : RealFns) (ks : List SVGSprite)
    (hIH : ∀ k ∈ ks, ∀ (c : Ctx) (o : ℚ) (k1 : SVGSprite) (c1 : Ctx),
      k.boundOK = true → SVGSprite.draw R k c o = some (k1, c1) →
      k1.boundOK = true) :
    ∀ (c : Ctx) (o : ℚ) (ks1 : List SVGSprite) (c1 : Ctx),
      SVGSprite.boundOKList ks = true →
      SVGSprite.drawList R ks c o = some (ks1, c1) →
      SVGSprite.boundOKList ks1 = true := by
  induction ks with
  | nil =>
    intro c o ks1 c1 _ h
    unfold SVGSprite.drawList at h
    simp only [Option.some.injEq, Prod.mk.injEq] at h
    rw [← h.1]
    rfl
  | cons k ks ih =>
    intro c o ks1 c1 hok h
    obtain ⟨hokk, hokks⟩ := boundOKList_destruct hok
    unfold SVGSprite.drawList at h
    split at h
    · exact absurd h (by simp)
    · rename_i k1 c1a heq1
      split at h
      · exact absurd h (by simp)
      · rename_i ks1a c1b heq2
        simp only [Option.some.injEq, Prod.mk.injEq] at h
        rw [← h.1]
        unfold SVGSprite.boundOKList
        rw [Bool.and_eq_true]
        exact ⟨hIH k (List.mem_cons_self _ _) c o k1 c1a hokk heq1,
          ih (fun j hj => hIH j (List.mem_cons_of_mem k hj)) c1a o ks1a c1b hokks heq2⟩

theorem draw_boundOK (R : RealFns) :
    ∀ (n : SVGSprite) (c : Ctx) (o : ℚ) (n1 : SVGSprite) (c1 : Ctx),
      n.boundOK = true → SVGSprite.draw R n c o = some (n1, c1) →
      n1.boundOK = true := by
  intro n
  induction n using SVGSprite.recTree with
  | h a tex texture dirty gop painted kids hkids =>
    intro c o n1 c1 hok hdraw
    obtain ⟨_, hokkids⟩ := boundOK_destruct hok
    by_cases hv : a.visible = true
    · obtain ⟨t, s, kids1, c4, hsel, hk, hr⟩ :=
        draw_visible_inv R a tex texture dirty gop painted kids c o (n1, c1) hv hdraw
      obtain ⟨hn1, _⟩ := (Prod.mk.injEq _ _ _ _).mp hr
      rw [hn1]
      exact boundOK_build (get_texture_surface_mem hsel)
        (drawList_boundOK_aux R kids hkids _ _ _ _ hokkids hk)
    · have hvf : a.visible = false := by
        cases hvb : a.visible
        · rfl
        · exact absurd hvb hv
      unfold SVGSprite.draw at hdraw
      rw [if_pos hvf] at hdraw
      simp only [Option.some.injEq, Prod.mk.injEq] at hdraw
      rw [← hdraw.1]
      exact hok

/-- C9: the bound surface of an SVGSprite is always a member of the
referenced SVGTexture's stored surface set: it holds of the surface the
constructor binds, and every draw preserves it for the whole subtree,
rebinds included. -/
theorem texture_membership_invariant :
    (∀ (tex : SVGTexture) (a : SpriteAttrs) (n : SVGSprite),
      SVGSprite.init tex a = some n →
      n.texture ∈ tex.textures.map Prod.snd) ∧
    (∀ (R : RealFns) (n : SVGSprite) (c : Ctx) (o : ℚ) (n1 : SVGSprite) (c1 : Ctx),
      n.boundOK = true → SVGSprite.draw R n c o = some (n1, c1) →
      n1.boundOK = true) := by
  constructor
  · intro tex a n hinit
    unfold SVGSprite.init at hinit
    obtain ⟨⟨t, s⟩, hts, hn⟩ := Option.map_eq_some'.mp hinit
    rw [← hn]
    exact get_texture_surface_mem hts
  · exact draw_boundOK

theorem texture_membership_invariant_witness :
    SVGSprite.init texW attrsId = some nodeWD ∧
      nodeWD.texture ∈ texW.textures.map Prod.snd ∧
      nodeWR.boundOK = true ∧
      SVGSprite.draw rfns0 nodeWR ctx0 1 = some (nodeWD1, ctxW1) ∧
      nodeWD1.boundOK = true :=
  ⟨by with_unfolding_all rfl,
    texture_membership_invariant.1 texW attrsId nodeWD (by with_unfolding_all rfl),
    by with_unfolding_all decide, by with_unfolding_all rfl,
    texture_membership_invariant.2 rfns0 nodeWR ctx0 1 nodeWD1 ctxW1
      (by with_unfolding_all decide) (by with_unfolding_all rfl)⟩

/-! ### PhysicsBox claims -/

/-- C7: with a body attached, PhysicsBox._draw writes x = px*25.0,
y = -py*25.0 and rotation = -angle into the node before delegating to
the standard sprite draw. -/
theorem physicsBox_draw_body_sets_transform (R : RealFns) (p : PhysicsBox)
    (c : Ctx) (o : ℚ) (b : B2Body) (hb : p.body = some b) :
    (p.draw R c o).1.attrs.x = b.position.x * 25.0 ∧
      (p.draw R c o).1.attrs.y = -b.position.y * 25.0 ∧
      (p.draw R c o).1.attrs.rotation = -b.angle := by
  unfold PhysicsBox.draw PhysicsBox.updateFromBody
  rw [hb]
  exact ⟨rfl, rfl, rfl⟩

/-- A physics box whose body sits at (2, 3) with angle 0.5. -/
def pBoxW : PhysicsBox :=
  { attrs := attrsId, body := some { position := { x := 2, y := 3 }, angle := 0.5 } }

theorem physicsBox_draw_body_sets_transform_witness :
    pBoxW.body = some { position := { x := 2, y := 3 }, angle := (0.5 : ℚ) } ∧
      ((pBoxW.draw rfns0 ctx0 1).1.attrs.x = (2 : ℚ) * 25.0 ∧
        (pBoxW.draw rfns0 ctx0 1).1.attrs.y = -(3 : ℚ) * 25.0 ∧
        (pBoxW.draw rfns0 ctx0 1).1.attrs.rotation = -(0.5 : ℚ)) ∧
      ((pBoxW.draw rfns0 ctx0 1).1.attrs.x = 50 ∧
        (pBoxW.draw rfns0 ctx0 1).1.attrs.y = -75 ∧
        (pBoxW.draw rfns0 ctx0 1).1.attrs.rotation = -(1 / 2 : ℚ)) :=
  ⟨by with_unfolding_all rfl,
    physicsBox_draw_body_sets_transform rfns0 pBoxW ctx0 1 _
      (by with_unfolding_all rfl),
    by with_unfolding_all decide⟩

/-- C8: with no body attached, PhysicsBox._draw leaves the node's
position and rotation exactly as they were before delegating to the
standard sprite draw. -/
theorem physicsBox_draw_no_body_preserves_transform (R : RealFns) (p : PhysicsBox)
    (c : Ctx) (o : ℚ) (hb : p.body = none) :
    (p.draw R c o).1.attrs.x = p.attrs.x ∧
      (p.draw R c o).1.attrs.y = p.attrs.y ∧
      (p.draw R c o).1.attrs.rotation = p.attrs.rotation := by
  unfold PhysicsBox.draw PhysicsBox.updateFromBody
  rw [hb]
  exact ⟨rfl, rfl, rfl⟩

/-- A bodyless physics box with an externally set transform. -/
def pBoxN : PhysicsBox :=
  { attrs := { attrsId with x := 7, y := -4, rotation := 3 }, body := none }

theorem physicsBox_draw_no_body_preserves_transform_witness :
    pBoxN.body = none ∧
      ((pBoxN.draw rfns0 ctx0 1).1.attrs.x = pBoxN.attrs.x ∧
        (pBoxN.draw rfns0 ctx0 1).1.attrs.y = pBoxN.attrs.y ∧
        (pBoxN.draw rfns0 ctx0 1).1.attrs.rotation = pBoxN.attrs.rotation) ∧
      ((pBoxN.draw rfns0 ctx0 1).1.attrs.x = 7 ∧
        (pBoxN.draw rfns0 ctx0 1).1.attrs.y = -4 ∧
        (pBoxN.draw rfns0 ctx0 1).1.attrs.rotation = 3) :=
  ⟨by with_unfolding_all rfl,
    physicsBox_draw_no_body_preserves_transform rfns0 pBoxN ctx0 1
      (by with_unfolding_all rfl),
    by with_unfolding_all decide⟩
